import Mathlib

/-!
Verification of the rate limiter in src/rate-limit.js.

The source is a closure created by createRateLimit(limit, perMiliseconds)
holding two mutable variables, requestCount and lastResetTime, and returning
the async function rateLimit(promiseFn).  We embed one rateLimit call as a
pure step over that closure state, under a deterministic logical clock:
Date.now() at entry is `now`, and `await wait(perMiliseconds)` advances the
clock by exactly perMiliseconds, so Date.now() after the wait reads
now + perMiliseconds.  Times are integers (milliseconds), counts are Nat.
-/

/-- Closure state of createRateLimit: the two mutable variables
requestCount and lastResetTime. -/
structure LimiterState where
  requestCount : Nat
  lastResetTime : Int
  deriving Repr, DecidableEq

/-- Initial closure state: `let requestCount = 0; let lastResetTime = Date.now()`,
where t0 is Date.now() at construction time. -/
def createRateLimit (t0 : Int) : LimiterState :=
  { requestCount := 0, lastResetTime := t0 }

/-- Observable outcome of one rateLimit(promiseFn) call: the closure state after
the call, the logical time `admitTime` at which promiseFn() is invoked, and
`waitedFor`, the delay awaited inside the call (0 when the wait branch is not
taken, perMiliseconds when it is). -/
structure StepOut where
  state : LimiterState
  admitTime : Int
  waitedFor : Int
  deriving Repr, DecidableEq

/-- One call of the async function rateLimit(promiseFn), translated line by line
from src/rate-limit.js, as a pure step on the closure state.  `now` is
Date.now() at entry (`const currentTime = Date.now()`). -/
def rateLimitStep (limit : Nat) (perMiliseconds : Int) (s : LimiterState) (now : Int) : StepOut :=
  -- if (currentTime - lastResetTime >= perMiliseconds) then requestCount = 0; lastResetTime = currentTime
  let s1 := if now - s.lastResetTime ≥ perMiliseconds then
    { requestCount := 0, lastResetTime := now } else s
  -- if (requestCount >= limit) then await wait(perMiliseconds); requestCount = 0; lastResetTime = Date.now()
  if s1.requestCount ≥ limit then
    let afterWait := now + perMiliseconds
    let s2 : LimiterState := { requestCount := 0, lastResetTime := afterWait }
    -- requestCount++ and then promiseFn is invoked at afterWait
    { state := { s2 with requestCount := s2.requestCount + 1 },
      admitTime := afterWait, waitedFor := perMiliseconds }
  else
    -- requestCount++ and then promiseFn is invoked immediately
    { state := { s1 with requestCount := s1.requestCount + 1 },
      admitTime := now, waitedFor := 0 }

/-- Full rateLimit(promiseFn) call including the task: `return await promiseFn()`.
The task is a zero-argument computation that resolves (`Except.ok`) or rejects
(`Except.error`); the call returns the limiter-side outcome together with the
task's own outcome, passed through verbatim. -/
def execute {E A : Type} (limit : Nat) (perMiliseconds : Int) (s : LimiterState) (now : Int)
    (promiseFn : Unit → Except E A) : StepOut × Except E A :=
  (rateLimitStep limit perMiliseconds s now, promiseFn ())

/-- Outcome of the helper wait(time): the delay passed to setTimeout and the
way the promise settles. -/
structure WaitOutcome (E : Type) where
  delay : Int
  result : Except E Unit
  deriving Repr

/-- Model of the helper wait(time) in src/rate-limit.js: the promise executor
calls setTimeout(() => resolve(), time) and never calls reject, so the promise
always resolves (with no value) after the given delay, for any error type E. -/
def wait (E : Type) (time : Int) : WaitOutcome E :=
  { delay := time, result := Except.ok () }

/-- Modelled from the spec: the execute(task) steps of section 4.1, written from
the spec's own words.  Step 1 reads `now`; step 2: if now - windowStart >=
windowDuration then admittedCount = 0 and windowStart = now; step 3: if
admittedCount >= limit then wait a full windowDuration (not the remaining time
until windowStart + windowDuration), then admittedCount = 0 and windowStart =
now-after-wait; step 4 increments admittedCount; step 5 invokes the task at
that point.  Here admittedCount is requestCount and windowStart is
lastResetTime. -/
def specExecuteStep (limit : Nat) (windowDuration : Int) (s : LimiterState) (now : Int) : StepOut :=
  let s2 := if now - s.lastResetTime ≥ windowDuration then
    { requestCount := 0, lastResetTime := now } else s
  if s2.requestCount ≥ limit then
    let nowAfterWait := now + windowDuration
    { state := { requestCount := 0 + 1, lastResetTime := nowAfterWait },
      admitTime := nowAfterWait, waitedFor := windowDuration }
  else
    { state := { requestCount := s2.requestCount + 1, lastResetTime := s2.lastResetTime },
      admitTime := now, waitedFor := 0 }

/-- Exhaustive case analysis of one rateLimitStep: no rollover and not
saturated; rollover and not saturated afterwards; rollover with limit = 0
(still saturated); no rollover and saturated. -/
theorem rateLimitStep_cases (limit : Nat) (per : Int) (s : LimiterState) (now : Int) :
    (¬ now - s.lastResetTime ≥ per ∧ s.requestCount < limit ∧
      rateLimitStep limit per s now =
        ⟨⟨s.requestCount + 1, s.lastResetTime⟩, now, 0⟩) ∨
    (now - s.lastResetTime ≥ per ∧ 0 < limit ∧
      rateLimitStep limit per s now = ⟨⟨1, now⟩, now, 0⟩) ∨
    (now - s.lastResetTime ≥ per ∧ limit = 0 ∧
      rateLimitStep limit per s now = ⟨⟨1, now + per⟩, now + per, per⟩) ∨
    (¬ now - s.lastResetTime ≥ per ∧ limit ≤ s.requestCount ∧
      rateLimitStep limit per s now = ⟨⟨1, now + per⟩, now + per, per⟩) := by
  by_cases hro : now - s.lastResetTime ≥ per
  · by_cases hlim : limit = 0
    · refine Or.inr (Or.inr (Or.inl ⟨hro, hlim, ?_⟩))
      subst hlim
      simp [rateLimitStep, hro]
    · refine Or.inr (Or.inl ⟨hro, Nat.pos_of_ne_zero hlim, ?_⟩)
      have h0 : ¬ (0 ≥ limit) := by omega
      simp [rateLimitStep, hro, h0]
  · by_cases hsat : s.requestCount ≥ limit
    · refine Or.inr (Or.inr (Or.inr ⟨hro, hsat, ?_⟩))
      simp [rateLimitStep, hro, hsat]
    · exact Or.inl ⟨hro, Nat.lt_of_not_le hsat, by
        simp [rateLimitStep, hro, Nat.not_le.mpr (Nat.lt_of_not_le hsat)]⟩

/-- C2: every execute(task) invocation follows exactly the spec's five steps:
read now; lazy rollover when now - windowStart >= windowDuration; on
saturation, wait a full windowDuration (not the remaining time) and then reset
the counter and windowStart to the post-wait time; increment; invoke the task.
The code's step function coincides with the step function transcribed from the
spec's words, on every state, time and parameter choice. -/
theorem rateLimit_follows_spec_steps (limit : Nat) (per : Int) (s : LimiterState) (now : Int) :
    rateLimitStep limit per s now = specExecuteStep limit per s now := rfl

/-- C4: the promise returned by execute(task) settles exactly as task's own
outcome: same resolution value, same rejection error, unmodified; any error
coming out of execute is task's own error, so no failure originates in the
limiter itself. -/
theorem execute_outcome_passthrough {E A : Type} (limit : Nat) (per : Int)
    (s : LimiterState) (now : Int) (promiseFn : Unit → Except E A) :
    (execute limit per s now promiseFn).2 = promiseFn () ∧
    (∀ v : A, promiseFn () = Except.ok v →
      (execute limit per s now promiseFn).2 = Except.ok v) ∧
    (∀ e : E, promiseFn () = Except.error e →
      (execute limit per s now promiseFn).2 = Except.error e) ∧
    (∀ e : E, (execute limit per s now promiseFn).2 = Except.error e →
      promiseFn () = Except.error e) := by
  refine ⟨rfl, fun v hv => ?_, fun e he => ?_, fun e he => ?_⟩
  · simp [execute, hv]
  · simp [execute, he]
  · simpa [execute] using he

theorem execute_outcome_passthrough_witness :
    (@execute Nat Nat 1 1 ⟨0, 0⟩ 0 (fun _ => Except.error 7)).2
      = Except.error 7 :=
  (@execute_outcome_passthrough Nat Nat 1 1 ⟨0, 0⟩ 0 (fun _ => Except.error 7)).2.2.1 7 rfl

/-- C5: the limiter state produced by execute(task) does not depend on the
task's outcome — the admission slot is consumed by the increment before the
task runs and is never reverted — and the post-call requestCount is at least 1
(the increment always happened). -/
theorem execute_state_independent_of_outcome {E A : Type} (limit : Nat) (per : Int)
    (s : LimiterState) (now : Int) (t1 t2 : Unit → Except E A) :
    (execute limit per s now t1).1 = (execute limit per s now t2).1 ∧
    1 ≤ (execute limit per s now t1).1.state.requestCount := by
  refine ⟨rfl, ?_⟩
  rcases rateLimitStep_cases limit per s now with ⟨_, _, h⟩ | ⟨_, _, h⟩ | ⟨_, _, h⟩ | ⟨_, _, h⟩ <;>
    simp [execute, h]

/-- C10: the task is consulted exactly once and with zero arguments: the result
of execute is determined by the single value task () (so two tasks agreeing on
that one invocation give identical results), the result genuinely depends on
that invocation, and the internal wait helper's promise always resolves (never
rejects) after exactly the given delay, so the delay path cannot fail. -/
theorem task_once_and_wait_resolves :
    (∀ (E : Type) (t : Int), (wait E t).result = Except.ok () ∧ (wait E t).delay = t) ∧
    (∀ (E A : Type) (limit : Nat) (per : Int) (s : LimiterState) (now : Int)
      (t1 t2 : Unit → Except E A), t1 () = t2 () →
        execute limit per s now t1 = execute limit per s now t2) ∧
    (∃ t1 t2 : Unit → Except Unit Bool,
        execute 1 1 ⟨0, 0⟩ 0 t1 ≠ execute 1 1 ⟨0, 0⟩ 0 t2) := by
  refine ⟨fun E t => ⟨rfl, rfl⟩, fun E A limit per s now t1 t2 h => ?_,
    ⟨fun _ => Except.ok true, fun _ => Except.ok false, by simp [execute]⟩⟩
  simp [execute, h]

theorem task_once_and_wait_resolves_witness :
    @execute Unit Nat 2 5 ⟨0, 0⟩ 0 (fun _ => Except.ok 3)
      = @execute Unit Nat 2 5 ⟨0, 0⟩ 0 (fun _ => Except.ok 3) :=
  task_once_and_wait_resolves.2.1 Unit Nat 2 5 ⟨0, 0⟩ 0 _ _ rfl

/-- Sequential awaited driver: each rateLimit call is issued d milliseconds
after the previous call's admission (the first one d milliseconds after
`now`), with instantaneous tasks, so the logical clock advances only through
the gaps and the waits.  Returns the per-call outcomes in order. -/
def runGaps (limit : Nat) (per : Int) : LimiterState → Int → List Nat → List StepOut
  | _, _, [] => []
  | s, now, d :: ds =>
    let o := rateLimitStep limit per s (now + (d : Int))
    o :: runGaps limit per o.state o.admitTime ds

/-- State and clock after driving the limiter through a gap sequence. -/
def advance (limit : Nat) (per : Int) : LimiterState → Int → List Nat → LimiterState × Int
  | s, now, [] => (s, now)
  | s, now, d :: ds =>
    let o := rateLimitStep limit per s (now + (d : Int))
    advance limit per o.state o.admitTime ds

/-- Number of execution starts falling in the half-open time interval
from a to a + W. -/
def countStartsIn (a W : Int) (times : List Int) : Nat :=
  times.countP (fun t => decide (a ≤ t ∧ t < a + W))

/-- Number of admissions granted under the window that started at r: the
admissions whose post-call lastResetTime equals r. -/
def admitsInWindowOf (r : Int) (outs : List StepOut) : Nat :=
  outs.countP (fun o => decide (o.state.lastResetTime = r))

theorem runGaps_append (limit : Nat) (per : Int) :
    ∀ (ds1 ds2 : List Nat) (s : LimiterState) (now : Int),
      runGaps limit per s now (ds1 ++ ds2) =
        runGaps limit per s now ds1 ++
          runGaps limit per (advance limit per s now ds1).1
            (advance limit per s now ds1).2 ds2
  | [], ds2, s, now => by simp [runGaps, advance]
  | d :: ds1, ds2, s, now => by
    simp only [List.cons_append, runGaps, advance, List.append_eq]
    rw [runGaps_append limit per ds1 ds2]

/-- While the admission count stays below the limit, back-to-back calls (zero
gaps) are all admitted immediately at the same logical time, each bumping the
count by one. -/
theorem runGaps_under_limit (limit : Nat) (per : Int) (hp : 1 ≤ per) :
    ∀ (m r : Nat) (T : Int), r + m ≤ limit →
      runGaps limit per ⟨r, T⟩ T (List.replicate m 0) =
        (List.range m).map (fun j => ⟨⟨r + j + 1, T⟩, T, 0⟩)
  | 0, r, T, _ => by simp [runGaps]
  | m + 1, r, T, h => by
    have hstep : rateLimitStep limit per ⟨r, T⟩ (T + ((0 : Nat) : Int)) =
        ⟨⟨r + 1, T⟩, T, 0⟩ := by
      have hro : ¬ ((per : Int) ≤ 0) := by omega
      have hsat : ¬ (limit ≤ r) := by omega
      simp [rateLimitStep, hro, hsat]
    simp only [List.replicate_succ, runGaps, hstep]
    rw [runGaps_under_limit limit per hp m (r + 1) T (by omega)]
    rw [List.range_succ_eq_map]
    simp only [List.map_cons, List.map_map]
    have hfun : ((fun j => (⟨⟨r + j + 1, T⟩, T, 0⟩ : StepOut)) ∘ Nat.succ)
        = fun j => (⟨⟨r + 1 + j + 1, T⟩, T, 0⟩ : StepOut) := by
      funext j
      simp only [Function.comp_apply, StepOut.mk.injEq, LimiterState.mk.injEq,
        and_true, true_and]
      omega
    rw [hfun]

/-- Companion to runGaps_under_limit for the end state of such a run. -/
theorem advance_under_limit (limit : Nat) (per : Int) (hp : 1 ≤ per) :
    ∀ (m r : Nat) (T : Int), r + m ≤ limit →
      advance limit per ⟨r, T⟩ T (List.replicate m 0) = (⟨r + m, T⟩, T)
  | 0, r, T, _ => by simp [advance]
  | m + 1, r, T, h => by
    have hstep : rateLimitStep limit per ⟨r, T⟩ (T + ((0 : Nat) : Int)) =
        ⟨⟨r + 1, T⟩, T, 0⟩ := by
      have hro : ¬ ((per : Int) ≤ 0) := by omega
      have hsat : ¬ (limit ≤ r) := by omega
      simp [rateLimitStep, hro, hsat]
    simp only [List.replicate_succ, advance, hstep]
    rw [advance_under_limit limit per hp m (r + 1) T (by omega)]
    have harith : r + 1 + m = r + (m + 1) := by omega
    rw [harith]

/-- C8: for every sequence of N back-to-back execute calls with N at most the
limit, all issued before the window elapses, the wait branch is never taken:
all N tasks run, none is delayed (every waitedFor is 0, every admission is at
the issuing time t0). -/
theorem under_limit_no_wait (limit : Nat) (per t0 : Int) (N : Nat)
    (hp : 1 ≤ per) (hN : N ≤ limit) :
    (runGaps limit per (createRateLimit t0) t0 (List.replicate N 0)).length = N ∧
    (runGaps limit per (createRateLimit t0) t0 (List.replicate N 0)).map
        StepOut.waitedFor = List.replicate N 0 ∧
    (runGaps limit per (createRateLimit t0) t0 (List.replicate N 0)).map
        StepOut.admitTime = List.replicate N t0 := by
  have h : runGaps limit per (createRateLimit t0) t0 (List.replicate N 0) =
      (List.range N).map (fun j => ⟨⟨0 + j + 1, t0⟩, t0, 0⟩) :=
    runGaps_under_limit limit per hp N 0 t0 (by omega)
  refine ⟨?_, ?_, ?_⟩ <;>
    simp [h, List.map_map, Function.comp_def, List.map_const', List.length_range]

theorem under_limit_no_wait_witness :
    (runGaps 3 5 (createRateLimit 0) 0 (List.replicate 2 0)).length = 2 ∧
    (runGaps 3 5 (createRateLimit 0) 0 (List.replicate 2 0)).map
        StepOut.waitedFor = List.replicate 2 0 ∧
    (runGaps 3 5 (createRateLimit 0) 0 (List.replicate 2 0)).map
        StepOut.admitTime = List.replicate 2 0 :=
  under_limit_no_wait 3 5 0 2 (by decide) (by decide)

/-- C3 fails as stated: with limit 2 and window 10, four back-to-back awaited
calls from a fresh limiter produce the wait profile [0, 0, 10, 0].  The claim
says calls limit+1 through 2*limit — here calls 3 and 4 (indices 2 and 3) —
each wait a full windowDuration, but call 4 is issued only after call 3's wait
completed, lands in the freshly reset window, and waits 0. -/
theorem over_limit_calls_wait_counterexample :
    ¬ ((((runGaps 2 10 (createRateLimit 0) 0 (List.replicate 4 0)).map
          StepOut.waitedFor).getD 2 0 = 10) ∧
       (((runGaps 2 10 (createRateLimit 0) 0 (List.replicate 4 0)).map
          StepOut.waitedFor).getD 3 0 = 10)) := by
  decide

/-- C3 (amended): for limit < N ≤ 2*limit back-to-back awaited calls within a
single window, call limit+1 incurs a wait of one full windowDuration, and the
remaining calls limit+2 .. N — issued after that wait, inside the reset
window — are admitted with no wait at all: the wait profile is limit zeros,
then one full windowDuration, then zeros. -/
theorem over_limit_first_waits_rest_immediate (limit : Nat) (per t0 : Int) (k : Nat)
    (hl : 1 ≤ limit) (hp : 1 ≤ per) (hk : k + 1 ≤ limit) :
    (runGaps limit per (createRateLimit t0) t0
        (List.replicate (limit + 1 + k) 0)).map StepOut.waitedFor
      = List.replicate limit 0 ++ per :: List.replicate k 0 := by
  have hsplit : List.replicate (limit + 1 + k) (0 : Nat) =
      List.replicate limit 0 ++ 0 :: List.replicate k 0 := by
    rw [show limit + 1 + k = limit + (k + 1) from by omega, List.replicate_add,
      List.replicate_succ]
  rw [hsplit, show createRateLimit t0 = ⟨0, t0⟩ from rfl, runGaps_append]
  rw [advance_under_limit limit per hp limit 0 t0 (by omega)]
  rw [runGaps_under_limit limit per hp limit 0 t0 (by omega)]
  have hstep : rateLimitStep limit per ⟨0 + limit, t0⟩ (t0 + ((0 : Nat) : Int)) =
      ⟨⟨1, t0 + per⟩, t0 + per, per⟩ := by
    have hro : ¬ ((per : Int) ≤ 0) := by omega
    simp [rateLimitStep, hro]
  simp only [runGaps, hstep]
  rw [runGaps_under_limit limit per hp k 1 (t0 + per) (by omega)]
  simp [List.map_map, Function.comp_def, List.map_const', List.length_range]

theorem over_limit_first_waits_rest_immediate_witness :
    (runGaps 2 10 (createRateLimit 0) 0
        (List.replicate (2 + 1 + 1) 0)).map StepOut.waitedFor
      = List.replicate 2 0 ++ (10 : Int) :: List.replicate 1 0 :=
  over_limit_first_waits_rest_immediate 2 10 0 1 (by decide) (by decide) (by decide)

/-- Along a sequential run the window start never moves backwards: every
recorded state's lastResetTime is at least the starting state's. -/
theorem runGaps_lastReset_mono (limit : Nat) (per : Int) (hp : 1 ≤ per) :
    ∀ (ds : List Nat) (s : LimiterState) (now : Int), s.lastResetTime ≤ now →
      ∀ o ∈ runGaps limit per s now ds, s.lastResetTime ≤ o.state.lastResetTime := by
  intro ds
  induction ds with
  | nil => intro s now _ o ho; simp [runGaps] at ho
  | cons d ds ih =>
    intro s now hnow o ho
    rcases rateLimitStep_cases limit per s (now + (d : Int)) with
      ⟨hc, hlt, heq⟩ | ⟨hc, hl0, heq⟩ | ⟨hc, hl0, heq⟩ | ⟨hc, hge, heq⟩ <;>
      · simp only [runGaps, heq] at ho
        rcases List.mem_cons.mp ho with ho | ho
        · subst ho; simp <;> omega
        · have := ih _ _ (by simp <;> omega) o ho
          simp at this; omega


/-- After a reset to a strictly later window start T (by rollover or by the
post-wait reset), the old window r = sLast gains nothing further, the new
window gains at most limit admissions in total (the head plus at most
limit - 1 in the tail), and every other window keeps its limit bound. -/
theorem epoch_bound_reset_case (limit : Nat) (per : Int) (hl : 1 ≤ limit) (hp : 1 ≤ per)
    (ds : List Nat) (T adm w sLast : Int) (cnt : Nat) (r : Int) (hT : sLast < T)
    (ih : ∀ r2 : Int, admitsInWindowOf r2 (runGaps limit per ⟨1, T⟩ T ds) ≤
        (if r2 = T then limit - 1 else limit)) :
    admitsInWindowOf r ((⟨⟨1, T⟩, adm, w⟩ : StepOut) ::
        runGaps limit per ⟨1, T⟩ T ds) ≤
      (if r = sLast then limit - cnt else limit) := by
  simp only [admitsInWindowOf, List.countP_cons, decide_eq_true_eq]
  by_cases hr2 : r = T
  · subst hr2
    have hne : ¬ (r = sLast) := by omega
    have htail := ih r
    simp only [admitsInWindowOf] at htail
    simp at htail
    simp [hne]
    omega
  · by_cases hr : r = sLast
    · subst hr
      have hTs : ¬ (T = r) := by omega
      have hzero : List.countP (fun o => decide (o.state.lastResetTime = r))
          (runGaps limit per ⟨1, T⟩ T ds) = 0 := by
        apply List.countP_eq_zero.mpr
        intro o ho
        have hmono := runGaps_lastReset_mono limit per hp ds ⟨1, T⟩ T le_rfl o ho
        simp only [decide_eq_true_eq]
        simp at hmono
        omega
      simp [hTs, hzero]
    · have hTr : ¬ (T = r) := by omega
      have htail := ih r
      simp only [admitsInWindowOf] at htail
      simp [hr2] at htail
      simp [hTr, hr]
      omega

/-- Key counting bound: starting from any state whose window began no later
than now, a sequential run grants at most limit minus the already-granted
admissions under the current window, and at most limit under any other single
window. -/
theorem runGaps_epoch_bound_aux (limit : Nat) (per : Int) (hl : 1 ≤ limit) (hp : 1 ≤ per) :
    ∀ (ds : List Nat) (s : LimiterState) (now : Int), s.lastResetTime ≤ now →
      ∀ r : Int, admitsInWindowOf r (runGaps limit per s now ds) ≤
        (if r = s.lastResetTime then limit - s.requestCount else limit) := by
  intro ds
  induction ds with
  | nil =>
    intro s now _ r
    simp only [runGaps, admitsInWindowOf, List.countP_nil]
    exact Nat.zero_le _
  | cons d ds ih =>
    intro s now hnow r
    rcases rateLimitStep_cases limit per s (now + (d : Int)) with
      ⟨hc, hlt, heq⟩ | ⟨hc, hl0, heq⟩ | ⟨hc, hl0, heq⟩ | ⟨hc, hge, heq⟩
    · -- no rollover, below the limit: same window, count goes up by one
      simp only [runGaps, heq]
      have htail := ih ⟨s.requestCount + 1, s.lastResetTime⟩ (now + (d : Int))
        (by simp <;> omega) r
      by_cases hr : r = s.lastResetTime
      · subst hr
        simp [admitsInWindowOf, List.countP_cons] at htail ⊢
        omega
      · have hr' : ¬ (s.lastResetTime = r) := fun h => hr h.symm
        simp [admitsInWindowOf, List.countP_cons, hr, hr'] at htail ⊢
        omega
    · -- rollover into a fresh window starting at now + d
      simp only [runGaps, heq]
      exact epoch_bound_reset_case limit per hl hp ds (now + (d : Int)) (now + (d : Int)) 0
        s.lastResetTime s.requestCount r (by omega)
        (fun r2 => ih ⟨1, now + (d : Int)⟩ (now + (d : Int)) le_rfl r2)
    · omega
    · -- saturated: a full-window wait, then a fresh window at now + d + per
      simp only [runGaps, heq]
      exact epoch_bound_reset_case limit per hl hp ds (now + (d : Int) + per)
        (now + (d : Int) + per) per s.lastResetTime s.requestCount r (by omega)
        (fun r2 => ih ⟨1, now + (d : Int) + per⟩ (now + (d : Int) + per) le_rfl r2)

/-- C1 fails as stated: with cap 2 and window 10, a fresh limiter driven
sequentially with calls arriving at times 9, 9, 10, 10 admits all four tasks
(the window lazily rolls over at time 10), so the 10-long interval starting at
time 5 contains 4 > 2 execution starts.  The lazy window is not a rolling
window: a W-length interval straddling a rollover can hold up to twice the
cap. -/
theorem rolling_window_bound_counterexample :
    ¬ (countStartsIn 5 10 ((runGaps 2 10 (createRateLimit 0) 0
        [9, 0, 1, 0]).map StepOut.admitTime) ≤ 2) := by
  decide

/-- C1 (amended): for every limiter with cap at least 1 and window at least 1,
and every sequence of sequentially awaited execute calls under the
deterministic logical clock, no more than limit task executions start within
any single limiter window: at most limit admissions share any one windowStart
value r.  (An arbitrary W-length time interval can still straddle a lazy
rollover and see up to twice the cap, as the counterexample shows.) -/
theorem admissions_per_window_epoch_bound (limit : Nat) (per t0 : Int)
    (ds : List Nat) (r : Int) (hl : 1 ≤ limit) (hp : 1 ≤ per) :
    admitsInWindowOf r (runGaps limit per (createRateLimit t0) t0 ds) ≤ limit := by
  have h := runGaps_epoch_bound_aux limit per hl hp ds (createRateLimit t0) t0
    (by simp [createRateLimit]) r
  by_cases hr : r = (createRateLimit t0).lastResetTime
  · rw [if_pos hr] at h
    omega
  · rw [if_neg hr] at h
    exact h

theorem admissions_per_window_epoch_bound_witness :
    admitsInWindowOf 0 (runGaps 1 1 (createRateLimit 0) 0 [0, 0]) ≤ 1 :=
  admissions_per_window_epoch_bound 1 1 0 [0, 0] 0 (by decide) (by decide)

/-- Phase of one in-flight rateLimit call under the cooperative scheduler:
ready (call arrived, synchronous admission section not yet run), waiting
(suspended in await wait(per) with its timer due at wakeAt), running
(promiseFn invoked, awaiting its settlement), done. -/
inductive Phase where
  | ready
  | waiting (wakeAt : Int)
  | running
  | done
  deriving Repr, DecidableEq

/-- Configuration of the cooperative machine: the shared closure state of one
createRateLimit instance, the logical clock, and the phase of each call. -/
structure Config where
  shared : LimiterState
  time : Int
  calls : List Phase
  deriving Repr, DecidableEq

/-- Synchronous part of one rateLimit call up to its first suspension point,
translated from the source: the rollover check runs first and may reset the
state; then, if the (possibly reset) count has reached the limit, the call
suspends in wait(per) with no further mutation (second component true);
otherwise it increments the count and proceeds to invoke its task (second
component false).  No await occurs inside this stretch, so it is one atomic
step of the cooperative scheduler. -/
def syncCheck (limit : Nat) (per : Int) (s : LimiterState) (now : Int) :
    LimiterState × Bool :=
  let s1 := if now - s.lastResetTime ≥ per then
    { requestCount := 0, lastResetTime := now } else s
  if s1.requestCount ≥ limit then (s1, true)
  else ({ requestCount := s1.requestCount + 1, lastResetTime := s1.lastResetTime }, false)

/-- Exhaustive case analysis of syncCheck, mirroring rateLimitStep_cases. -/
theorem syncCheck_cases (limit : Nat) (per : Int) (s : LimiterState) (now : Int) :
    (¬ now - s.lastResetTime ≥ per ∧ s.requestCount < limit ∧
      syncCheck limit per s now = (⟨s.requestCount + 1, s.lastResetTime⟩, false)) ∨
    (now - s.lastResetTime ≥ per ∧ 0 < limit ∧
      syncCheck limit per s now = (⟨1, now⟩, false)) ∨
    (now - s.lastResetTime ≥ per ∧ limit = 0 ∧
      syncCheck limit per s now = (⟨0, now⟩, true)) ∨
    (¬ now - s.lastResetTime ≥ per ∧ limit ≤ s.requestCount ∧
      syncCheck limit per s now = (s, true)) := by
  by_cases hro : now - s.lastResetTime ≥ per
  · by_cases hlim : limit = 0
    · refine Or.inr (Or.inr (Or.inl ⟨hro, hlim, ?_⟩))
      subst hlim
      simp [syncCheck, hro]
    · refine Or.inr (Or.inl ⟨hro, Nat.pos_of_ne_zero hlim, ?_⟩)
      have h0 : ¬ (0 ≥ limit) := by omega
      simp [syncCheck, hro, h0]
  · by_cases hsat : s.requestCount ≥ limit
    · refine Or.inr (Or.inr (Or.inr ⟨hro, hsat, ?_⟩))
      simp [syncCheck, hro, hsat]
    · exact Or.inl ⟨hro, Nat.lt_of_not_le hsat, by
        simp [syncCheck, hro, Nat.not_le.mpr (Nat.lt_of_not_le hsat)]⟩

/-- Scheduler actions: advance the clock, run call i's synchronous admission
section, fire call i's wait(per) timer and run its continuation, or settle
call i's task. -/
inductive Act where
  | tick (t : Int)
  | start (i : Nat)
  | wake (i : Nat)
  | finish (i : Nat)
  deriving Repr, DecidableEq

/-- Small-step transition relation of the cooperative machine.  Each step is
one uninterrupted synchronous stretch of src/rate-limit.js: the admission
section up to either the task invocation or the entry into wait(per); the
post-wait continuation (requestCount = 0; lastResetTime = Date.now();
requestCount++; invoke the task), which reads nothing of the shared state; or
a task settling.  setTimeout fires at or after the requested time; the clock
never goes backwards. -/
inductive Step (limit : Nat) (per : Int) : Act → Config → Config → Prop
  | tick (c : Config) (t : Int) (h : c.time ≤ t) :
      Step limit per (.tick t) c { c with time := t }
  | startRun (c : Config) (i : Nat) (h : c.calls[i]? = some .ready)
      (hrun : (syncCheck limit per c.shared c.time).2 = false) :
      Step limit per (.start i) c
        { c with shared := (syncCheck limit per c.shared c.time).1,
                 calls := c.calls.set i .running }
  | startWait (c : Config) (i : Nat) (h : c.calls[i]? = some .ready)
      (hw : (syncCheck limit per c.shared c.time).2 = true) :
      Step limit per (.start i) c
        { c with shared := (syncCheck limit per c.shared c.time).1,
                 calls := c.calls.set i (.waiting (c.time + per)) }
  | wake (c : Config) (i : Nat) (T : Int) (h : c.calls[i]? = some (.waiting T))
      (ht : T ≤ c.time) :
      Step limit per (.wake i) c
        { c with shared := { requestCount := 0 + 1, lastResetTime := c.time },
                 calls := c.calls.set i .running }
  | finish (c : Config) (i : Nat) (h : c.calls[i]? = some .running) :
      Step limit per (.finish i) c { c with calls := c.calls.set i .done }

/-- A run of the machine along a list of scheduler actions. -/
inductive Steps (limit : Nat) (per : Int) : List Act → Config → Config → Prop
  | nil (c : Config) : Steps limit per [] c c
  | cons {a : Act} {acts : List Act} {c c1 c2 : Config}
      (h : Step limit per a c c1) (hs : Steps limit per acts c1 c2) :
      Steps limit per (a :: acts) c c2

/-- Reachability under some scheduling of the machine. -/
def Reaches (limit : Nat) (per : Int) (c c2 : Config) : Prop :=
  ∃ acts : List Act, Steps limit per acts c c2

/-- Starting configuration: a limiter constructed at time t0 with n calls
about to be issued. -/
def initConfig (t0 : Int) (n : Nat) : Config :=
  { shared := createRateLimit t0, time := t0, calls := List.replicate n .ready }

/-- One machine step keeps the shared count at or below the limit. -/
theorem step_preserves_requestCount_le (limit : Nat) (per : Int) (hl : 1 ≤ limit)
    {a : Act} {c c2 : Config} (hstep : Step limit per a c c2)
    (hc : c.shared.requestCount ≤ limit) : c2.shared.requestCount ≤ limit := by
  cases hstep with
  | tick c t h => exact hc
  | startRun c i h hrun =>
    rcases syncCheck_cases limit per c.shared c.time with
      ⟨_, hlt, heq⟩ | ⟨_, _, heq⟩ | ⟨_, _, heq⟩ | ⟨_, _, heq⟩ <;> simp [heq] <;> omega
  | startWait c i h hw =>
    rcases syncCheck_cases limit per c.shared c.time with
      ⟨_, hlt, heq⟩ | ⟨_, _, heq⟩ | ⟨_, _, heq⟩ | ⟨_, _, heq⟩ <;> simp [heq] <;> omega
  | wake c i T h ht => simpa using hl
  | finish c i h => exact hc

/-- The count bound is preserved along any run. -/
theorem steps_preserve_requestCount_le (limit : Nat) (per : Int) (hl : 1 ≤ limit) :
    ∀ {acts : List Act} {c c2 : Config}, Steps limit per acts c c2 →
      c.shared.requestCount ≤ limit → c2.shared.requestCount ≤ limit := by
  intro acts c c2 hsteps
  induction hsteps with
  | nil => exact id
  | cons h hs ih =>
    intro hc
    exact ih (step_preserves_requestCount_le limit per hl h hc)

/-- C6: for every limiter constructed with limit at least 1, the invariant
requestCount at most limit holds in every configuration reachable from a fresh
limiter under every interleaving of cooperatively concurrent execute calls —
in particular at every suspension point and after every completed call. -/
theorem requestCount_le_limit_invariant (limit : Nat) (per t0 : Int) (n : Nat)
    (c : Config) (hl : 1 ≤ limit) (h : Reaches limit per (initConfig t0 n) c) :
    c.shared.requestCount ≤ limit := by
  obtain ⟨acts, hsteps⟩ := h
  refine steps_preserve_requestCount_le limit per hl hsteps ?_
  simp [initConfig, createRateLimit]

theorem requestCount_le_limit_invariant_witness :
    (initConfig 0 1).shared.requestCount ≤ 1 :=
  requestCount_le_limit_invariant 1 1 0 1 (initConfig 0 1) (by decide)
    ⟨[], Steps.nil _⟩

/-- Single machine steps are deterministic: the same scheduler action from the
same configuration has exactly one successor. -/
theorem step_deterministic (limit : Nat) (per : Int) {a : Act} {c c1 c2 : Config}
    (h1 : Step limit per a c c1) (h2 : Step limit per a c c2) : c1 = c2 := by
  cases h1 <;> cases h2 <;> simp_all

/-- C7: two-run determinism.  Two limiters constructed with identical
(limit, windowDuration), started in the same configuration and driven by the
same scheduler action sequence (same call sequence, same deterministic clock
and scheduler) end in identical configurations: the admission timing and the
whole state evolution coincide. -/
theorem identical_runs_identical_evolution (limit : Nat) (per : Int) :
    ∀ {acts : List Act} {c cA cB : Config},
      Steps limit per acts c cA → Steps limit per acts c cB → cA = cB := by
  intro acts c cA cB h1
  induction h1 generalizing cB with
  | nil => intro h2; cases h2; rfl
  | cons h hs ih =>
    intro h2
    cases h2 with
    | cons h2s hs2 =>
      have heq := step_deterministic limit per h h2s
      subst heq
      exact ih hs2

theorem identical_runs_identical_evolution_witness :
    ({ shared := createRateLimit 0, time := 5, calls := [Phase.ready] } : Config)
      = { shared := createRateLimit 0, time := 5, calls := [Phase.ready] } :=
  identical_runs_identical_evolution 1 1
    (Steps.cons (Step.tick (initConfig 0 1) 5 (by decide)) (Steps.nil _))
    (Steps.cons (Step.tick (initConfig 0 1) 5 (by decide)) (Steps.nil _))

/-- C9: a saturated call waits exactly once and is then admitted
unconditionally.  First conjunct: the post-wait continuation overwrites the
shared state to count 1 (reset then increment) and windowStart equal to the
wake-up time, regardless of any rollovers or admissions other calls performed
during the wait — its precondition and effect never read the shared state.
Second conjunct: the single wait is scheduled for exactly one full
windowDuration after the suspension time.  Third conjunct: a waiting call
either keeps its unchanged wake time or becomes running — it never waits
again, so no call waits more than one windowDuration inside the limiter. -/
theorem post_wait_unconditional_admission (limit : Nat) (per : Int) :
    (∀ (c c2 : Config) (i : Nat), Step limit per (.wake i) c c2 →
      c2.shared = ⟨1, c.time⟩ ∧ c2.time = c.time) ∧
    (∀ (c c2 : Config) (i : Nat) (T : Int), Step limit per (.start i) c c2 →
      c2.calls[i]? = some (.waiting T) → T = c.time + per) ∧
    (∀ (a : Act) (c c2 : Config) (i : Nat) (T : Int),
      c.calls[i]? = some (.waiting T) → Step limit per a c c2 →
      c2.calls[i]? = some (.waiting T) ∨ c2.calls[i]? = some .running) := by
  refine ⟨fun c c2 i h => ?_, fun c c2 i T h hT => ?_, fun a c c2 i T hw h => ?_⟩
  · cases h with
    | wake c i T h ht => exact ⟨rfl, rfl⟩
  · cases h with
    | startRun c i h hrun =>
      have hlen : i < c.calls.length := by
        rcases List.getElem?_eq_some_iff.mp h with ⟨hlt, _⟩
        exact hlt
      rw [List.getElem?_set_self hlen] at hT
      simp at hT
    | startWait c i h hw =>
      have hlen : i < c.calls.length := by
        rcases List.getElem?_eq_some_iff.mp h with ⟨hlt, _⟩
        exact hlt
      rw [List.getElem?_set_self hlen] at hT
      simp at hT
      omega
  · cases h with
    | tick c t ht => exact Or.inl hw
    | startRun c j hj hrun =>
      by_cases hij : j = i
      · subst hij; rw [hj] at hw; simp at hw
      · rw [List.getElem?_set_ne hij]
        exact Or.inl hw
    | startWait c j hj hsw =>
      by_cases hij : j = i
      · subst hij; rw [hj] at hw; simp at hw
      · rw [List.getElem?_set_ne hij]
        exact Or.inl hw
    | wake c j T2 hj ht =>
      by_cases hij : j = i
      · subst hij
        have hlen : j < c.calls.length := by
          rcases List.getElem?_eq_some_iff.mp hj with ⟨hlt, _⟩
          exact hlt
        rw [List.getElem?_set_self hlen]
        exact Or.inr rfl
      · rw [List.getElem?_set_ne hij]
        exact Or.inl hw
    | finish c j hj =>
      by_cases hij : j = i
      · subst hij; rw [hj] at hw; simp at hw
      · rw [List.getElem?_set_ne hij]
        exact Or.inl hw

theorem post_wait_unconditional_admission_witness :
    (⟨⟨1, 5⟩, 5, [Phase.running]⟩ : Config).shared = ⟨1, 5⟩ ∧
      (⟨⟨1, 5⟩, 5, [Phase.running]⟩ : Config).time = 5 :=
  (post_wait_unconditional_admission 2 7).1 ⟨⟨2, 0⟩, 5, [Phase.waiting 3]⟩ _ 0
    (Step.wake ⟨⟨2, 0⟩, 5, [Phase.waiting 3]⟩ 0 3 rfl (by decide))
